import Mathlib

/-!
Verification of `src/bytes.rs`: the `Bytes` tagged union (called "ByteView"
in the design document), its `ToBytes` conversion trait, and its
size / view / comparison / hash contract.

Modelling conventions:
* A byte is a `Nat` (no arithmetic is ever performed on bytes, only
  equality and `<`-comparison, so the 0..255 bound is irrelevant to every
  property proved here).
* A contiguous byte buffer in memory is a `Buf`: an address (`Nat`) plus
  its byte contents.  Holding the same `Buf` means pointing at the same
  storage — this is how the zero-copy properties are stated.
* `Rc α` models both `std::rc::Rc` and the `bytes::Bytes` shared buffer:
  a reference-counted cell (identified by its address `cell`) holding a
  value.  The reference counts themselves live in a `Heap`
  (`rc : Nat → Nat`), and the operations `rcNew` / `rcClone` /
  `copyFromSlice` thread the heap explicitly.  `Heap.next` is the next
  never-used address; allocation hands out fresh addresses from it.
* Rust `&str` is a `Str`: a validity-irrelevant wrapper around the byte
  buffer its UTF-8 contents live in (`Str.as_bytes` is the identity on
  that buffer, as `str::as_bytes` is a pointer reinterpretation).
-/

/-- A contiguous byte buffer: its address in memory and its contents.
Two views are backed by the same storage iff they hold the same `Buf`. -/
structure Buf where
  addr : Nat
  data : List Nat
deriving DecidableEq, Repr

/-- `len` of a slice / `Vec<u8>` / `String` (for `String`, Rust's `len`
is the byte length of the UTF-8 contents). -/
def Buf.len (b : Buf) : Nat := b.data.length

/-- A reference-counted cell (`Rc<T>`, and also the `bytes::Bytes`
shared buffer): the address identifying the cell plus the value stored
in it.  The count itself is looked up in the `Heap`. -/
structure Rc (α : Type) where
  cell : Nat
  val : α
deriving DecidableEq, Repr

/-- The reference-count heap: the count of every cell address, and the
next fresh (never yet allocated) address. -/
structure Heap where
  rc : Nat → Nat
  next : Nat

/-- `Rc::new(v)`: moves `v` into a freshly allocated cell whose count
starts at 1.  `v` itself is not copied. -/
def rcNew (h : Heap) (v : α) : Rc α × Heap :=
  (⟨h.next, v⟩,
   ⟨fun x => if x = h.next then 1 else h.rc x, h.next + 1⟩)

/-- `Rc::clone` / `bytes::Bytes::clone`: returns a handle to the same
cell (same address, same value) and increments that cell's count. -/
def rcClone (h : Heap) (r : Rc α) : Rc α × Heap :=
  (r,
   ⟨fun x => if x = r.cell then h.rc x + 1 else h.rc x, h.next⟩)

/-- `bytes::Bytes::copy_from_slice(s)`: allocates a fresh
reference-counted buffer (count 1) at a fresh address and copies the
bytes of `s` into it. -/
def copyFromSlice (h : Heap) (s : List Nat) : Rc Buf × Heap :=
  (⟨h.next, ⟨h.next + 1, s⟩⟩,
   ⟨fun x => if x = h.next then 1 else h.rc x, h.next + 2⟩)

/-- Rust `&str`: a borrowed view of a buffer holding valid UTF-8. -/
structure Str where
  bytes : Buf
deriving DecidableEq, Repr

/-- `str::as_bytes`: reinterprets the text as its underlying byte
buffer, zero-copy (same storage). -/
def Str.as_bytes (s : Str) : Buf := s.bytes

/-- transcription of `enum Bytes<'a>` from `src/bytes.rs`:
`Slice(&'a [u8])`, `Bytes(bytes::Bytes)`, `Vec(Rc<Vec<u8>>)`,
`String(Rc<String>)`.  The `String` payload is modelled by the byte
buffer of its UTF-8 contents. -/
inductive Bytes where
  | Slice (s : Buf)
  | Bytes (b : Rc Buf)
  | Vec (v : Rc Buf)
  | String (s : Rc Buf)
deriving DecidableEq, Repr

/-- The spec's name for the `Bytes` type (used in signatures inside the
`Bytes` namespace, where the bare name `Bytes` denotes the
`Bytes.Bytes` constructor). -/
abbrev ByteView := Bytes

/-- transcription of `Bytes::size` from `src/bytes.rs`: matches on the
variant and returns the payload's `len()`. -/
def Bytes.size : ByteView → Nat
  | .Slice s => s.len
  | .Bytes b => b.val.len
  | .Vec v => v.val.len
  | .String s => s.val.len

/-- transcription of `impl AsRef<[u8]> for Bytes`: the uniform read-only
byte view of each variant. -/
def Bytes.as_ref : ByteView → List Nat
  | .Slice s => s.data
  | .Bytes b => b.val.data
  | .Vec v => v.val.data
  | .String s => s.val.data

/-- `<[u8] as Ord>::cmp`: byte-wise lexicographic comparison of slices;
the first differing byte decides, and if one slice is exhausted first it
compares as less. -/
def sliceCmp : List Nat → List Nat → Ordering
  | [], [] => .eq
  | [], _ :: _ => .lt
  | _ :: _, [] => .gt
  | a :: l₁, b :: l₂ =>
    match compare a b with
    | .eq => sliceCmp l₁ l₂
    | o => o

/-- transcription of `impl Ord for Bytes`: compares the two `as_ref`
views as slices. -/
def Bytes.cmp (a b : ByteView) : Ordering :=
  sliceCmp a.as_ref b.as_ref

/-- transcription of `impl PartialOrd for Bytes`:
`Some(self.cmp(other))`. -/
def Bytes.partial_cmp (a b : ByteView) : Option Ordering :=
  some (a.cmp b)

/-- transcription of `impl PartialEq for Bytes`: slice equality of the
two `as_ref` views. -/
def Bytes.eq (a b : ByteView) : Bool :=
  a.as_ref == b.as_ref

/-- transcription of `impl Hash for Bytes`: feeds exactly the `as_ref`
view to the hasher.  A hasher is modelled abstractly as any state
transformer `H` consuming a byte sequence; `hash` is how the impl
advances the hasher state. -/
def Bytes.hash {σ : Type} (H : List Nat → σ → σ) (b : ByteView) (state : σ) : σ :=
  H b.as_ref state

/-- transcription of `impl ToBytes for &[u8]`: `Bytes::Slice(self)`. -/
def toBytes_slice (s : Buf) : Bytes := .Slice s

/-- transcription of `impl ToBytes for &str`:
`Bytes::Slice(self.as_bytes())`. -/
def toBytes_str (s : Str) : Bytes := .Slice (Str.as_bytes s)

/-- The array lengths enumerated in the `byte_array_to_bytes!` macro
invocation in `src/bytes.rs`: the only array sizes for which a `ToBytes`
impl exists. -/
def supportedArraySizes : List Nat :=
  [0, 1, 2, 3, 4, 5, 6, 7, 8, 9, 10, 11, 12, 13, 14, 15, 16]

/-- transcription of the `ToBytes` impl generated by
`byte_array_to_bytes!` for each enumerated size:
`Bytes::Bytes(bytes::Bytes::copy_from_slice(&self))`.  The membership
hypothesis records that the impl exists only for the enumerated sizes. -/
def toBytes_array (h : Heap) (a : List Nat)
    (_ : a.length ∈ supportedArraySizes) : Bytes × Heap :=
  let p := copyFromSlice h a
  (.Bytes p.1, p.2)

/-- transcription of `impl ToBytes for String`:
`Bytes::String(Rc::new(self))`. -/
def toBytes_string (h : Heap) (s : Buf) : Bytes × Heap :=
  let p := rcNew h s
  (.String p.1, p.2)

/-- transcription of `impl ToBytes for Vec<u8>`:
`Bytes::Vec(Rc::new(self))`. -/
def toBytes_vec (h : Heap) (v : Buf) : Bytes × Heap :=
  let p := rcNew h v
  (.Vec p.1, p.2)

/-- transcription of `impl ToBytes for bytes::Bytes` (by value):
`Bytes::Bytes(self)` — `self` is moved into the variant, no clone is
performed, so the heap (every reference count) passes through
unchanged. -/
def toBytes_shared (h : Heap) (b : Rc Buf) : Bytes × Heap :=
  (.Bytes b, h)

/-- transcription of `impl ToBytes for &bytes::Bytes`:
`Bytes::Bytes(self.clone())` — one reference-count increment. -/
def toBytes_sharedRef (h : Heap) (b : Rc Buf) : Bytes × Heap :=
  let p := rcClone h b
  (.Bytes p.1, p.2)

/-- transcription of `impl ToBytes for Bytes`: `self` (the identity). -/
def toBytes_self (b : Bytes) : Bytes := b

/-- `#[derive(Clone)]` on `enum Bytes`: clones the active variant's
payload — a slice re-borrow for `Slice` (no heap effect), a
reference-count increment for the three shared variants. -/
def Bytes.clone (h : Heap) : ByteView → ByteView × Heap
  | .Slice s => (.Slice s, h)
  | .Bytes b =>
    let p := rcClone h b
    (.Bytes p.1, p.2)
  | .Vec v =>
    let p := rcClone h v
    (.Vec p.1, p.2)
  | .String s =>
    let p := rcClone h s
    (.String p.1, p.2)

/-- transcription of `impl ToBytes for &Bytes`: `self.clone()`. -/
def toBytes_selfRef (h : Heap) (b : Bytes) : Bytes × Heap :=
  Bytes.clone h b

/-! ### Properties of the slice comparison -/

theorem sliceCmp_eq_iff : ∀ l₁ l₂ : List Nat, sliceCmp l₁ l₂ = Ordering.eq ↔ l₁ = l₂
  | [], [] => by simp [sliceCmp]
  | [], _ :: _ => by simp [sliceCmp]
  | _ :: _, [] => by simp [sliceCmp]
  | a :: l₁, b :: l₂ => by
    rw [sliceCmp]
    cases h : compare a b with
    | lt =>
      have hab : a < b := Nat.compare_eq_lt.mp h
      simp [Nat.ne_of_lt hab]
    | eq =>
      have hab : a = b := Nat.compare_eq_eq.mp h
      subst hab
      simpa using sliceCmp_eq_iff l₁ l₂
    | gt =>
      have hba : b < a := Nat.compare_eq_gt.mp h
      simp [Ne.symm (Nat.ne_of_lt hba)]

theorem sliceCmp_lt_iff :
    ∀ l₁ l₂ : List Nat, sliceCmp l₁ l₂ = Ordering.lt ↔ List.Lex (· < ·) l₁ l₂
  | [], [] => by
    simpa [sliceCmp] using List.Lex.not_nil_right (· < ·) ([] : List Nat)
  | [], b :: l₂ => by
    simpa [sliceCmp] using List.Lex.nil
  | a :: l₁, [] => by
    simpa [sliceCmp] using List.Lex.not_nil_right (· < ·) (a :: l₁)
  | a :: l₁, b :: l₂ => by
    rw [sliceCmp]
    cases h : compare a b with
    | lt =>
      have hab : a < b := Nat.compare_eq_lt.mp h
      exact iff_of_true rfl (List.Lex.rel hab)
    | eq =>
      have hab : a = b := Nat.compare_eq_eq.mp h
      subst hab
      simpa [List.Lex.cons_iff] using sliceCmp_lt_iff l₁ l₂
    | gt =>
      have hba : b < a := Nat.compare_eq_gt.mp h
      refine iff_of_false (by simp) fun hl => ?_
      cases hl with
      | cons hl₂ => exact absurd hba (Nat.lt_irrefl a)
      | rel hab => exact absurd hba (Nat.lt_asymm hab)

theorem sliceCmp_gt_iff :
    ∀ l₁ l₂ : List Nat, sliceCmp l₁ l₂ = Ordering.gt ↔ List.Lex (· < ·) l₂ l₁
  | [], [] => by
    simpa [sliceCmp] using List.Lex.not_nil_right (· < ·) ([] : List Nat)
  | [], b :: l₂ => by
    simpa [sliceCmp] using List.Lex.not_nil_right (· < ·) (b :: l₂)
  | a :: l₁, [] => by
    simpa [sliceCmp] using List.Lex.nil
  | a :: l₁, b :: l₂ => by
    rw [sliceCmp]
    cases h : compare a b with
    | lt =>
      have hab : a < b := Nat.compare_eq_lt.mp h
      refine iff_of_false (by simp) fun hl => ?_
      cases hl with
      | cons hl₂ => exact absurd hab (Nat.lt_irrefl a)
      | rel hba => exact absurd hba (Nat.lt_asymm hab)
    | eq =>
      have hab : a = b := Nat.compare_eq_eq.mp h
      subst hab
      simpa [List.Lex.cons_iff] using sliceCmp_gt_iff l₁ l₂
    | gt =>
      have hba : b < a := Nat.compare_eq_gt.mp h
      exact iff_of_true rfl (List.Lex.rel hba)

/-- A proper initial segment is lexicographically smaller. -/
theorem lex_of_proper_initial_segment :
    ∀ (l t : List Nat), t ≠ [] → List.Lex (· < ·) l (l ++ t)
  | [], [], ht => absurd rfl ht
  | [], _ :: _, _ => List.Lex.nil
  | _ :: l, t, ht => List.Lex.cons (lex_of_proper_initial_segment l t ht)

/-! ### The claims -/

/-- C1: two ByteView instances are equal iff their byte-slice views are
byte-for-byte equal, whatever variant each uses; in particular a
Borrowed view over `[1,2,3]` equals a Shared-vector view over
`[1,2,3]`. -/
theorem C1_eq_iff_views_equal :
    (∀ a b : ByteView, Bytes.eq a b = true ↔ a.as_ref = b.as_ref) ∧
      Bytes.eq (toBytes_slice ⟨0, [1, 2, 3]⟩)
        ((toBytes_vec ⟨fun _ => 0, 10⟩ ⟨20, [1, 2, 3]⟩).1) = true := by
  constructor
  · intro a b
    simp [Bytes.eq]
  · decide

/-- C2: comparison of two ByteView instances is byte-wise lexicographic
over their raw byte sequences (`lt`, `eq`, `gt` each characterized), and
when one view is a proper initial segment of the other the shorter
compares as less. -/
theorem C2_cmp_lexicographic :
    ∀ a b : ByteView,
      (Bytes.cmp a b = Ordering.eq ↔ a.as_ref = b.as_ref) ∧
      (Bytes.cmp a b = Ordering.lt ↔ List.Lex (· < ·) a.as_ref b.as_ref) ∧
      (Bytes.cmp a b = Ordering.gt ↔ List.Lex (· < ·) b.as_ref a.as_ref) ∧
      (∀ t : List Nat, t ≠ [] → b.as_ref = a.as_ref ++ t →
        Bytes.cmp a b = Ordering.lt) := by
  intro a b
  refine ⟨sliceCmp_eq_iff _ _, sliceCmp_lt_iff _ _, sliceCmp_gt_iff _ _, ?_⟩
  intro t ht hb
  exact (sliceCmp_lt_iff _ _).mpr (hb ▸ lex_of_proper_initial_segment a.as_ref t ht)

theorem C2_cmp_lexicographic_witness :
    Bytes.cmp (Bytes.Slice ⟨0, [1, 2]⟩) (Bytes.Slice ⟨1, [1, 2, 3]⟩) = Ordering.lt :=
  (C2_cmp_lexicographic (Bytes.Slice ⟨0, [1, 2]⟩) (Bytes.Slice ⟨1, [1, 2, 3]⟩)).2.2.2
    [3] (by decide) (by decide)

/-- C3: any two ByteView instances that compare equal hash identically
under the same hasher (any hasher state transformer, any starting
state), across all variant combinations. -/
theorem C3_hash_consistency {σ : Type} (H : List Nat → σ → σ) (state : σ)
    (a b : ByteView) (h : Bytes.eq a b = true) :
    Bytes.hash H a state = Bytes.hash H b state := by
  have hv : a.as_ref = b.as_ref := by simpa [Bytes.eq] using h
  simp [Bytes.hash, hv]

theorem C3_hash_consistency_witness :
    Bytes.hash (fun l s => s + l.length) (Bytes.Slice ⟨0, [1, 2, 3]⟩) 7 =
      Bytes.hash (fun l s => s + l.length) (Bytes.String ⟨5, ⟨6, [1, 2, 3]⟩⟩) 7 :=
  C3_hash_consistency (fun l s => s + l.length) 7
    (Bytes.Slice ⟨0, [1, 2, 3]⟩) (Bytes.String ⟨5, ⟨6, [1, 2, 3]⟩⟩) (by decide)

/-- C4: `size` returns exactly the byte length of the view for every
variant, and a ByteView from a borrowed slice `s` has `size = s.len`
and its read-only view is exactly `s`'s bytes. -/
theorem C4_size_is_view_length :
    (∀ b : ByteView, b.size = b.as_ref.length) ∧
      ∀ s : Buf, (toBytes_slice s).size = s.len ∧ (toBytes_slice s).as_ref = s.data := by
  constructor
  · intro b
    cases b <;> rfl
  · intro s
    exact ⟨rfl, rfl⟩

/-- C5: converting a borrowed byte slice produces the Borrowed (`Slice`)
variant holding that same buffer, and converting borrowed text produces
the Borrowed variant holding the text's byte buffer, both zero-copy,
with the view equal to the source bytes. -/
theorem C5_borrowed_zero_copy :
    (∀ s : Buf, toBytes_slice s = Bytes.Slice s ∧ (toBytes_slice s).as_ref = s.data) ∧
      ∀ t : Str, toBytes_str t = Bytes.Slice t.bytes ∧
        (toBytes_str t).as_ref = t.bytes.data :=
  ⟨fun _ => ⟨rfl, rfl⟩, fun _ => ⟨rfl, rfl⟩⟩

/-- C6: converting an owned text buffer yields the Shared-text
(`String`) variant and an owned growable byte buffer the Shared-vector
(`Vec`) variant, each wrapping the very same buffer (same address, same
bytes: zero-copy) in a freshly allocated reference-count cell whose
count is 1, leaving every other count unchanged. -/
theorem C6_owned_buffers_shared_zero_copy :
    ∀ (h : Heap) (v : Buf),
      (toBytes_string h v).1 = Bytes.String ⟨h.next, v⟩ ∧
      (toBytes_string h v).1.as_ref = v.data ∧
      (toBytes_string h v).2.rc h.next = 1 ∧
      (toBytes_vec h v).1 = Bytes.Vec ⟨h.next, v⟩ ∧
      (toBytes_vec h v).1.as_ref = v.data ∧
      (toBytes_vec h v).2.rc h.next = 1 ∧
      (∀ x, x ≠ h.next → (toBytes_vec h v).2.rc x = h.rc x ∧
        (toBytes_string h v).2.rc x = h.rc x) := by
  intro h v
  refine ⟨rfl, rfl, by simp [toBytes_string, rcNew], rfl, rfl,
    by simp [toBytes_vec, rcNew], ?_⟩
  intro x hx
  constructor <;> simp [toBytes_vec, toBytes_string, rcNew, hx]

theorem C6_owned_buffers_shared_zero_copy_witness :
    (toBytes_vec ⟨fun _ => 0, 5⟩ ⟨2, [9]⟩).2.rc 3 = 0 :=
  ((C6_owned_buffers_shared_zero_copy ⟨fun _ => 0, 5⟩ ⟨2, [9]⟩).2.2.2.2.2.2
    3 (by decide)).1

/-- C7: array-to-ByteView conversion exists exactly for the enumerated
sizes, which are exactly 0..16; for a supported array it copies the
bytes once into a freshly allocated shared-immutable buffer (fresh
address, count 1), producing the Shared-immutable (`Bytes`) variant
whose view equals the array's contents. -/
theorem C7_array_conversion :
    (∀ n : Nat, n ∈ supportedArraySizes ↔ n ≤ 16) ∧
      ∀ (h : Heap) (a : List Nat) (hs : a.length ∈ supportedArraySizes),
        toBytes_array h a hs =
          (Bytes.Bytes ⟨h.next, ⟨h.next + 1, a⟩⟩,
            ⟨fun x => if x = h.next then 1 else h.rc x, h.next + 2⟩) ∧
        (toBytes_array h a hs).1.as_ref = a ∧
        (toBytes_array h a hs).2.rc h.next = 1 := by
  constructor
  · intro n
    simp only [supportedArraySizes, List.mem_cons, List.not_mem_nil, or_false]
    omega
  · intro h a hs
    refine ⟨rfl, rfl, by simp [toBytes_array, copyFromSlice]⟩

theorem C7_array_conversion_witness :
    (3 ∈ supportedArraySizes ↔ 3 ≤ 16) ∧
      (toBytes_array ⟨fun _ => 0, 0⟩ [1, 2, 3] (by decide)).1.as_ref = [1, 2, 3] :=
  ⟨C7_array_conversion.1 3,
    (C7_array_conversion.2 ⟨fun _ => 0, 0⟩ [1, 2, 3] (by decide)).2.1⟩

/-- C8 as stated is false at a concrete input: after converting a
shared-immutable buffer (count 1 at cell 0) **by value**, the count is
still 1 — it is not the previous count incremented once. -/
theorem C8_counterexample :
    (toBytes_shared (copyFromSlice ⟨fun _ => 0, 0⟩ [7]).2
        (copyFromSlice ⟨fun _ => 0, 0⟩ [7]).1).2.rc 0 = 1 ∧
      ¬ ((toBytes_shared (copyFromSlice ⟨fun _ => 0, 0⟩ [7]).2
          (copyFromSlice ⟨fun _ => 0, 0⟩ [7]).1).2.rc 0 =
        (copyFromSlice ⟨fun _ => 0, 0⟩ [7]).2.rc 0 + 1) := by
  decide

/-- C8 (amended): converting a shared-immutable buffer by value moves it
into the Shared-immutable (`Bytes`) variant over the same storage,
zero-copy, with every reference count unchanged; converting by
reference yields the Shared-immutable variant over the same cell with
that cell's count incremented once, all other counts and the allocation
frontier untouched. -/
theorem C8_shared_buffer_conversion :
    ∀ (h : Heap) (b : Rc Buf),
      toBytes_shared h b = (Bytes.Bytes b, h) ∧
      (toBytes_sharedRef h b).1 = Bytes.Bytes b ∧
      (toBytes_sharedRef h b).2.rc b.cell = h.rc b.cell + 1 ∧
      (∀ x, x ≠ b.cell → (toBytes_sharedRef h b).2.rc x = h.rc x) ∧
      (toBytes_sharedRef h b).2.next = h.next := by
  intro h b
  refine ⟨rfl, rfl, by simp [toBytes_sharedRef, rcClone], ?_, rfl⟩
  intro x hx
  simp [toBytes_sharedRef, rcClone, hx]

theorem C8_shared_buffer_conversion_witness :
    (toBytes_sharedRef ⟨fun _ => 0, 3⟩ ⟨1, ⟨2, [4]⟩⟩).2.rc 0 = 0 :=
  (C8_shared_buffer_conversion ⟨fun _ => 0, 3⟩ ⟨1, ⟨2, [4]⟩⟩).2.2.2.1 0 (by decide)

/-- C9: converting an existing ByteView by value is the identity, and
converting by reference clones it to a value with the same variant and
payload — hence indistinguishable by size, bytes and equality — without
changing the original. -/
theorem C9_identity_conversion :
    ∀ (h : Heap) (b : ByteView),
      toBytes_self b = b ∧
      (toBytes_selfRef h b).1 = b ∧
      (toBytes_selfRef h b).1.size = b.size ∧
      (toBytes_selfRef h b).1.as_ref = b.as_ref ∧
      Bytes.eq (toBytes_selfRef h b).1 b = true := by
  intro h b
  have hclone : (toBytes_selfRef h b).1 = b := by
    cases b <;> rfl
  refine ⟨rfl, hclone, by rw [hclone], by rw [hclone], ?_⟩
  rw [hclone]
  simp [Bytes.eq]

/-- C10: the comparison operations form a total order consistent with
equality: partial comparison always returns a definite ordering, namely
exactly the total comparison's answer, and the total comparison returns
`eq` precisely when the equality test returns `true`. -/
theorem C10_total_order_consistent :
    ∀ a b : ByteView,
      (∃ o, Bytes.partial_cmp a b = some o) ∧
      Bytes.partial_cmp a b = some (Bytes.cmp a b) ∧
      (Bytes.cmp a b = Ordering.eq ↔ Bytes.eq a b = true) := by
  intro a b
  refine ⟨⟨Bytes.cmp a b, rfl⟩, rfl, ?_⟩
  simp [Bytes.eq, Bytes.cmp, sliceCmp_eq_iff]
